import Mathlib

/-!
Verification of the CPU-vs-ReRAM-IMC inference benchmark
(`verilator-model/sw/hello.c` and `verilator-model/testbench.cpp`).

The software side is embedded shallowly: weight matrices are functions
`ℕ → ℕ → ℤ` (the C code stores them row-major and indexes `W[r*cols+c]`,
which is exactly a lookup at row `r`, column `c`), byte vectors are
functions `ℕ → ℤ`, and every C arithmetic step is mirrored on `ℤ` with
explicit `% 2 ^ 32` where the C program casts to `uint32_t`.  All values
handled by the program stay far below the 32-bit signed bound (this is
proved where it matters), so plain `ℤ` addition is faithful to the C
`int32_t` accumulation on the reachable domain.
-/

namespace IMCModel

/-- Range of a C `int8_t` value. -/
def i8_range (x : ℤ) : Prop := -128 ≤ x ∧ x ≤ 127

/-- Range of a C `uint8_t` value. -/
def u8_range (x : ℤ) : Prop := 0 ≤ x ∧ x ≤ 255

/-- Function `cpu_mv_u8` (hello.c lines 26-34): row `r` of the direct CPU
matrix-vector product, `out[r] = Σ_{c<cols} W[r*cols+c] * inp[c]`,
with the input read as unsigned bytes. -/
def cpu_mv_u8 (W : ℕ → ℕ → ℤ) (inp : ℕ → ℤ) (cols r : ℕ) : ℤ :=
  ∑ c ∈ Finset.range cols, W r c * inp c

/-- Function `cpu_mv_i8` (hello.c lines 36-44): identical arithmetic to
`cpu_mv_u8`, but the C input pointer is `int8_t*`; on the `ℤ` embedding
both loops compute the same sum of products. -/
def cpu_mv_i8 (W : ℕ → ℕ → ℤ) (inp : ℕ → ℤ) (cols r : ℕ) : ℤ :=
  ∑ c ∈ Finset.range cols, W r c * inp c

/-- Conductance programmed into tile cell `(r, c)` by `imc_tile_mac`
(hello.c lines 74-83): `(uint32_t)(W[w_row*cols+w_col] + 128)` when the
cell maps inside the true matrix, else the neutral value `128`. -/
def g_val (W : ℕ → ℕ → ℤ) (rows cols r_start c_start r c : ℕ) : ℤ :=
  if r_start + r < rows ∧ c_start + c < cols then
    (W (r_start + r) (c_start + c) + 128) % 2 ^ 32
  else 128

/-- Element `c` of the 8-wide input vector driven into the tile
(hello.c lines 86-93): the input byte when `c_start + c < cols`,
else the zero fill of `uint8_t v[8] = {0}`. -/
def v_in (inp : ℕ → ℤ) (cols c_start c : ℕ) : ℤ :=
  if c_start + c < cols then inp (c_start + c) else 0

/-- Accumulated `sum_v` (hello.c lines 87-93): the sum of the 8 clamped/zero-padded
unsigned input bytes actually driven into the tile. -/
def sum_v (inp : ℕ → ℤ) (cols c_start : ℕ) : ℤ :=
  ∑ c ∈ Finset.range 8, v_in inp cols c_start c

/-- Modelled from the spec: the crossbar read-back register
`IMC_RESULT(r)` of the accelerator (the RTL implementing the
memory-mapped tile is not part of the repository).  Per the spec, the
physical read-back for output row `r` is
`raw[r] = Σ_c conductance[r][c] * input[c]`. -/
def imc_result (W : ℕ → ℕ → ℤ) (rows cols : ℕ) (inp : ℕ → ℤ)
    (r_start c_start r : ℕ) : ℤ :=
  ∑ c ∈ Finset.range 8,
    g_val W rows cols r_start c_start r c * v_in inp cols c_start c

/-- The offset-corrected MAC computed by `imc_tile_mac` (hello.c line
104): `true_mac = (int32_t)raw_current - (128 * (int32_t)sum_v)`. -/
def true_mac (W : ℕ → ℕ → ℤ) (rows cols : ℕ) (inp : ℕ → ℤ)
    (r_start c_start r : ℕ) : ℤ :=
  imc_result W rows cols inp r_start c_start r - 128 * sum_v inp cols c_start

/-- Effect of one `imc_tile_mac` call (hello.c lines 72-108) on the
`out` buffer: for each tile row `r < 8` whose absolute row
`w_row = r_start + r` satisfies `w_row < rows`, the corrected MAC is
added into `out[w_row]`; every other entry is untouched. -/
def imc_tile_mac (W : ℕ → ℕ → ℤ) (rows cols : ℕ) (inp : ℕ → ℤ)
    (out : ℕ → ℤ) (r_start c_start : ℕ) : ℕ → ℤ :=
  fun i =>
    if r_start ≤ i ∧ i < r_start + 8 ∧ i < rows then
      out i + true_mac W rows cols inp r_start c_start (i - r_start)
    else out i

/-- The tile start offsets visited by a loop `for (x = 0; x < n; x += 8)`:
`0, 8, …, 8*(⌈n/8⌉-1)`. -/
def tileStarts (n : ℕ) : List ℕ :=
  (List.range ((n + 7) / 8)).map (· * 8)

/-- Function `imc_layer_execution` (hello.c lines 110-117): zero the first `rows`
accumulator entries, then sweep tiles with the column band as the outer
loop and the row band as the inner loop. -/
def imc_layer_execution (W : ℕ → ℕ → ℤ) (inp : ℕ → ℤ) (out : ℕ → ℤ)
    (rows cols : ℕ) : ℕ → ℤ :=
  (tileStarts cols).foldl
    (fun o cs =>
      (tileStarts rows).foldl
        (fun o2 rs => imc_tile_mac W rows cols inp o2 rs cs) o)
    (fun i => if i < rows then 0 else out i)

/-- Helper: the contribution of the column band starting at `cs` to
output row `i` — the part of the true dot product whose column indices
lie in `[cs, min (cs+8) cols)`. -/
def bandSum (W : ℕ → ℕ → ℤ) (cols : ℕ) (inp : ℕ → ℤ) (i cs : ℕ) : ℤ :=
  ∑ c ∈ Finset.range 8,
    if cs + c < cols then W i (cs + c) * inp (cs + c) else 0

lemma list_range_map_sum (m : ℕ) (f : ℕ → ℤ) :
    ((List.range m).map f).sum = ∑ k ∈ Finset.range m, f k := rfl

lemma true_mac_eq (W : ℕ → ℕ → ℤ) (rows cols : ℕ) (inp : ℕ → ℤ)
    (hW : ∀ r c, r < rows → c < cols → i8_range (W r c))
    (r_start c_start r : ℕ) (hr : r_start + r < rows) :
    true_mac W rows cols inp r_start c_start r
      = ∑ c ∈ Finset.range 8,
          if c_start + c < cols then
            W (r_start + r) (c_start + c) * inp (c_start + c)
          else 0 := by
  unfold true_mac imc_result sum_v
  rw [Finset.mul_sum, ← Finset.sum_sub_distrib]
  refine Finset.sum_congr rfl ?_
  intro c _
  by_cases hc : c_start + c < cols
  · have hw := hW (r_start + r) (c_start + c) hr hc
    unfold i8_range at hw
    unfold g_val v_in
    rw [if_pos ⟨hr, hc⟩, if_pos hc, if_pos hc,
      Int.emod_eq_of_lt (by omega) (by omega)]
    ring
  · unfold g_val v_in
    rw [if_neg (fun h => hc h.2), if_neg hc, if_neg hc]
    ring

lemma true_mac_sub (W : ℕ → ℕ → ℤ) (rows cols : ℕ) (inp : ℕ → ℤ)
    (hW : ∀ r c, r < rows → c < cols → i8_range (W r c))
    (rs cs i : ℕ) (h1 : rs ≤ i) (h3 : i < rows) :
    true_mac W rows cols inp rs cs (i - rs) = bandSum W cols inp i cs := by
  have hsub : rs + (i - rs) = i := by omega
  rw [true_mac_eq W rows cols inp hW rs cs (i - rs) (by omega)]
  unfold bandSum
  rw [hsub]

lemma foldl_tile_apply (W : ℕ → ℕ → ℤ) (rows cols : ℕ) (inp : ℕ → ℤ)
    (hW : ∀ r c, r < rows → c < cols → i8_range (W r c))
    (cs : ℕ) (L : List ℕ) (out : ℕ → ℤ) (i : ℕ) :
    (L.foldl (fun o2 rs => imc_tile_mac W rows cols inp o2 rs cs) out) i
      = out i + (L.map (fun rs =>
          if rs ≤ i ∧ i < rs + 8 ∧ i < rows then bandSum W cols inp i cs
          else 0)).sum := by
  induction L generalizing out with
  | nil => simp
  | cons rs L ih =>
      simp only [List.foldl_cons, List.map_cons, List.sum_cons]
      rw [ih]
      unfold imc_tile_mac
      by_cases h : rs ≤ i ∧ i < rs + 8 ∧ i < rows
      · rw [if_pos h, if_pos h,
          true_mac_sub W rows cols inp hW rs cs i h.1 h.2.2]
        ring
      · rw [if_neg h, if_neg h]
        ring

lemma tileStarts_onehot (n i : ℕ) (hi : i < n) (x : ℤ) :
    ((tileStarts n).map (fun rs =>
        if rs ≤ i ∧ i < rs + 8 ∧ i < n then x else 0)).sum = x := by
  unfold tileStarts
  rw [List.map_map, list_range_map_sum]
  have hstep : ∀ k ∈ Finset.range ((n + 7) / 8),
      ((fun rs => if rs ≤ i ∧ i < rs + 8 ∧ i < n then x else 0) ∘ (· * 8)) k
        = if k = i / 8 then x else 0 := by
    intro k _
    simp only [Function.comp_apply]
    refine if_congr ?_ rfl rfl
    omega
  rw [Finset.sum_congr rfl hstep, Finset.sum_ite_eq' (Finset.range ((n + 7) / 8)) (i / 8)]
  rw [if_pos (Finset.mem_range.mpr (by omega))]

lemma foldl_layer_apply (W : ℕ → ℕ → ℤ) (rows cols : ℕ) (inp : ℕ → ℤ)
    (hW : ∀ r c, r < rows → c < cols → i8_range (W r c))
    (L : List ℕ) (init : ℕ → ℤ) (i : ℕ) (hi : i < rows) :
    (L.foldl (fun o cs =>
        (tileStarts rows).foldl
          (fun o2 rs => imc_tile_mac W rows cols inp o2 rs cs) o) init) i
      = init i + (L.map (fun cs => bandSum W cols inp i cs)).sum := by
  induction L generalizing init with
  | nil => simp
  | cons cs L ih =>
      simp only [List.foldl_cons, List.map_cons, List.sum_cons]
      rw [ih, foldl_tile_apply W rows cols inp hW cs (tileStarts rows) init i,
        tileStarts_onehot rows i hi]
      ring

lemma sum_range_mul_eight (n : ℕ) (g : ℕ → ℤ) :
    ∑ k ∈ Finset.range n, ∑ j ∈ Finset.range 8, g (k * 8 + j)
      = ∑ c ∈ Finset.range (n * 8), g c := by
  induction n with
  | zero => simp
  | succ n ih =>
      rw [Finset.sum_range_succ, ih]
      have h8 : (n + 1) * 8 = n * 8 + 8 := by ring
      rw [h8, ← Finset.sum_range_add_sum_Ico g (show n * 8 ≤ n * 8 + 8 by omega)]
      congr 1
      rw [Finset.sum_Ico_eq_sum_range, Nat.add_sub_cancel_left]

lemma bandSum_total (W : ℕ → ℕ → ℤ) (cols : ℕ) (inp : ℕ → ℤ) (i : ℕ) :
    ((tileStarts cols).map (fun cs => bandSum W cols inp i cs)).sum
      = ∑ c ∈ Finset.range cols, W i c * inp c := by
  unfold tileStarts bandSum
  rw [List.map_map, list_range_map_sum]
  have hc : ∀ k ∈ Finset.range ((cols + 7) / 8),
      ((fun cs => ∑ c ∈ Finset.range 8,
          if cs + c < cols then W i (cs + c) * inp (cs + c) else 0) ∘ (· * 8)) k
        = ∑ j ∈ Finset.range 8,
            if k * 8 + j < cols then W i (k * 8 + j) * inp (k * 8 + j) else 0 :=
    fun k _ => rfl
  rw [Finset.sum_congr rfl hc]
  have hle : cols ≤ (cols + 7) / 8 * 8 := by omega
  calc ∑ k ∈ Finset.range ((cols + 7) / 8), ∑ j ∈ Finset.range 8,
        (if k * 8 + j < cols then W i (k * 8 + j) * inp (k * 8 + j) else 0)
      = ∑ c ∈ Finset.range ((cols + 7) / 8 * 8),
          (if c < cols then W i c * inp c else 0) :=
        sum_range_mul_eight ((cols + 7) / 8)
          (fun c => if c < cols then W i c * inp c else 0)
    _ = ∑ c ∈ Finset.range cols, (if c < cols then W i c * inp c else 0) :=
        (Finset.sum_subset (Finset.range_subset.mpr hle)
          (fun x _ hx => if_neg (by simpa using hx))).symm
    _ = ∑ c ∈ Finset.range cols, W i c * inp c :=
        Finset.sum_congr rfl (fun c hcc => if_pos (Finset.mem_range.mp hcc))

lemma imc_layer_eq_cpu (W : ℕ → ℕ → ℤ) (rows cols : ℕ) (inp : ℕ → ℤ)
    (out : ℕ → ℤ)
    (hW : ∀ r c, r < rows → c < cols → i8_range (W r c))
    (i : ℕ) (hi : i < rows) :
    imc_layer_execution W inp out rows cols i = cpu_mv_u8 W inp cols i := by
  unfold imc_layer_execution
  rw [foldl_layer_apply W rows cols inp hW (tileStarts cols)
      (fun j => if j < rows then 0 else out j) i hi,
    bandSum_total W cols inp i, if_pos hi]
  unfold cpu_mv_u8
  ring

/-- Function `argmax` (hello.c lines 46-51): `best = 0`, then for `i = 1 … n-1`
replace `best` by `i` only when `a[i] > a[best]` (strict comparison). -/
def argmax (a : ℕ → ℤ) (n : ℕ) : ℕ :=
  (List.range' 1 (n - 1)).foldl (fun best i => if a best < a i then i else best) 0

/-- The shared per-layer post-processing applied to each hidden
accumulator entry, identical in `infer_cpu` (hello.c lines 55-60) and
`infer_imc` (lines 121-126): add the bias, clip negatives to zero,
truncating division by `H_DIV` (C `/=` on a non-negative value),
then clamp values above 127 down to 127. -/
def hidden_post (acc b hdiv : ℤ) : ℤ :=
  let v := acc + b
  let v1 := if v < 0 then 0 else v
  let v2 := Int.tdiv v1 hdiv
  if 127 < v2 then 127 else v2

/-- The value obtained by re-reading a stored `int8_t` byte through a
`uint8_t` pointer (the cast `(const uint8_t*)hidden_act` at hello.c
line 128): the two's-complement bit pattern of `x` read as unsigned. -/
def u8_of_i8 (x : ℤ) : ℤ := x % 256

/-- Function `infer_cpu` (hello.c lines 53-67).  The weight tables, biases,
divisor and layer sizes come from `mnist_weights_int8.h`, an opaque
constant table that is not part of the repository, so they are
parameters of the embedding.  The global accumulator buffers are fully
overwritten before use, so they are modelled as locals. -/
def infer_cpu (w1 : ℕ → ℕ → ℤ) (b1 : ℕ → ℤ) (w2 : ℕ → ℕ → ℤ) (b2 : ℕ → ℤ)
    (hdiv : ℤ) (inputSize hiddenSize outputSize : ℕ) (img : ℕ → ℤ) : ℕ :=
  let hidden_acc : ℕ → ℤ := fun i => cpu_mv_u8 w1 img inputSize i
  let hidden_act : ℕ → ℤ := fun i => hidden_post (hidden_acc i) (b1 i) hdiv
  let output_acc : ℕ → ℤ := fun i => cpu_mv_i8 w2 hidden_act hiddenSize i + b2 i
  argmax output_acc outputSize

/-- Function `infer_imc` (hello.c lines 119-133): same pipeline, with both
matrix-vector products delegated to `imc_layer_execution`, and the
hidden activations re-read through a `uint8_t` pointer for layer 2.
The prior contents of the accumulator buffers are irrelevant (each
layer zeroes the rows it uses), so a zero buffer is passed. -/
def infer_imc (w1 : ℕ → ℕ → ℤ) (b1 : ℕ → ℤ) (w2 : ℕ → ℕ → ℤ) (b2 : ℕ → ℤ)
    (hdiv : ℤ) (inputSize hiddenSize outputSize : ℕ) (img : ℕ → ℤ) : ℕ :=
  let hidden_acc : ℕ → ℤ := imc_layer_execution w1 img (fun _ => 0) hiddenSize inputSize
  let hidden_act : ℕ → ℤ := fun i => hidden_post (hidden_acc i) (b1 i) hdiv
  let output_acc : ℕ → ℤ := fun i =>
    imc_layer_execution w2 (fun c => u8_of_i8 (hidden_act c)) (fun _ => 0)
      outputSize hiddenSize i + b2 i
  argmax output_acc outputSize

lemma argmax_succ (a : ℕ → ℤ) (n : ℕ) (hn : 0 < n) :
    argmax a (n + 1) = if a (argmax a n) < a n then n else argmax a n := by
  unfold argmax
  have h1 : n + 1 - 1 = (n - 1) + 1 := by omega
  rw [h1, List.range'_concat, List.foldl_append]
  simp only [List.foldl_cons, List.foldl_nil]
  have h2 : 1 + 1 * (n - 1) = n := by omega
  rw [h2]

lemma argmax_spec (a : ℕ → ℤ) : ∀ n, 0 < n →
    argmax a n < n ∧ (∀ i, i < n → a i ≤ a (argmax a n)) ∧
      (∀ j, j < argmax a n → a j < a (argmax a n)) := by
  intro n
  induction n with
  | zero => intro h; exact absurd h (lt_irrefl 0)
  | succ n ih =>
      intro _
      by_cases hn : 0 < n
      · obtain ⟨hb, hmax, hstrict⟩ := ih hn
        rw [argmax_succ a n hn]
        by_cases hc : a (argmax a n) < a n
        · rw [if_pos hc]
          refine ⟨by omega, ?_, ?_⟩
          · intro i hi
            rcases Nat.lt_succ_iff_lt_or_eq.mp hi with h | h
            · exact le_of_lt (lt_of_le_of_lt (hmax i h) hc)
            · rw [h]
          · intro j hj
            exact lt_of_le_of_lt (hmax j hj) hc
        · rw [if_neg hc]
          refine ⟨by omega, ?_, hstrict⟩
          intro i hi
          rcases Nat.lt_succ_iff_lt_or_eq.mp hi with h | h
          · exact hmax i h
          · rw [h]
            exact not_lt.mp hc
      · have hn0 : n = 0 := by omega
        subst hn0
        refine ⟨by norm_num [argmax], ?_, ?_⟩
        · intro i hi
          have hi0 : i = 0 := by omega
          subst hi0
          exact le_refl _
        · intro j hj
          rw [show argmax a (0 + 1) = 0 from rfl] at hj
          exact absurd hj (Nat.not_lt_zero j)

lemma argmax_congr (a b : ℕ → ℤ) : ∀ n, (∀ i, i < n → a i = b i) →
    argmax a n = argmax b n := by
  intro n
  induction n with
  | zero => intro _; rfl
  | succ n ih =>
      intro hab
      by_cases hn : 0 < n
      · rw [argmax_succ a n hn, argmax_succ b n hn]
        have he : argmax a n = argmax b n := ih (fun i hi => hab i (by omega))
        have hlt := (argmax_spec b n hn).1
        rw [he, hab n (by omega), hab (argmax b n) (by omega)]
      · have hn0 : n = 0 := by omega
        subst hn0
        rfl

lemma hidden_post_eq_min (acc b hdiv : ℤ) :
    hidden_post acc b hdiv = min (Int.tdiv (max (acc + b) 0) hdiv) 127 := by
  simp only [hidden_post]
  by_cases h : acc + b < 0
  · rw [if_pos h, max_eq_right (by omega)]
    by_cases h2 : 127 < Int.tdiv 0 hdiv
    · rw [if_pos h2, min_eq_right (by omega)]
    · rw [if_neg h2, min_eq_left (by omega)]
  · rw [if_neg h, max_eq_left (by omega)]
    by_cases h2 : 127 < Int.tdiv (acc + b) hdiv
    · rw [if_pos h2, min_eq_right (by omega)]
    · rw [if_neg h2, min_eq_left (by omega)]

lemma hidden_post_bounds (acc b hdiv : ℤ) (hd : 0 < hdiv) :
    0 ≤ hidden_post acc b hdiv ∧ hidden_post acc b hdiv ≤ 127 := by
  rw [hidden_post_eq_min]
  have h0 : 0 ≤ Int.tdiv (max (acc + b) 0) hdiv :=
    Int.tdiv_nonneg (le_max_right _ _) (le_of_lt hd)
  constructor
  · exact le_min h0 (by norm_num)
  · exact min_le_right _ _

lemma u8_of_i8_eq_self (x : ℤ) (h0 : 0 ≤ x) (h1 : x ≤ 127) :
    u8_of_i8 x = x :=
  Int.emod_eq_of_lt h0 (by omega)

lemma imc_tile_mac_frame (W : ℕ → ℕ → ℤ) (rows cols : ℕ) (inp : ℕ → ℤ)
    (out : ℕ → ℤ) (r_start c_start i : ℕ)
    (h : ¬(r_start ≤ i ∧ i < r_start + 8 ∧ i < rows)) :
    imc_tile_mac W rows cols inp out r_start c_start i = out i :=
  if_neg h

lemma foldl_inner_frame (W : ℕ → ℕ → ℤ) (rows cols : ℕ) (inp : ℕ → ℤ)
    (cs i : ℕ) (hi : rows ≤ i) :
    ∀ (L : List ℕ) (o : ℕ → ℤ),
      (L.foldl (fun o2 rs => imc_tile_mac W rows cols inp o2 rs cs) o) i
        = o i := by
  intro L
  induction L with
  | nil => intro o; rfl
  | cons rs L ih =>
      intro o
      rw [List.foldl_cons, ih]
      exact if_neg (by omega)

lemma imc_layer_frame (W : ℕ → ℕ → ℤ) (inp : ℕ → ℤ) (out : ℕ → ℤ)
    (rows cols : ℕ) (i : ℕ) (hi : rows ≤ i) :
    imc_layer_execution W inp out rows cols i = out i := by
  unfold imc_layer_execution
  have houter : ∀ (L : List ℕ) (o : ℕ → ℤ),
      (L.foldl (fun o cs =>
          (tileStarts rows).foldl
            (fun o2 rs => imc_tile_mac W rows cols inp o2 rs cs) o) o) i
        = o i := by
    intro L
    induction L with
    | nil => intro o; rfl
    | cons cs L ih =>
        intro o
        rw [List.foldl_cons, ih]
        exact foldl_inner_frame W rows cols inp cs i hi (tileStarts rows) o
  rw [houter]
  exact if_neg (by omega)

lemma infer_imc_eq_infer_cpu (w1 : ℕ → ℕ → ℤ) (b1 : ℕ → ℤ)
    (w2 : ℕ → ℕ → ℤ) (b2 : ℕ → ℤ) (hdiv : ℤ)
    (inputSize hiddenSize outputSize : ℕ) (img : ℕ → ℤ)
    (hw1 : ∀ r c, r < hiddenSize → c < inputSize → i8_range (w1 r c))
    (hw2 : ∀ r c, r < outputSize → c < hiddenSize → i8_range (w2 r c))
    (hd : 0 < hdiv) :
    infer_imc w1 b1 w2 b2 hdiv inputSize hiddenSize outputSize img
      = infer_cpu w1 b1 w2 b2 hdiv inputSize hiddenSize outputSize img := by
  simp only [infer_imc, infer_cpu]
  refine argmax_congr _ _ outputSize ?_
  intro i hi
  rw [imc_layer_eq_cpu w2 outputSize hiddenSize
      (fun c => u8_of_i8 (hidden_post
        (imc_layer_execution w1 img (fun _ => 0) hiddenSize inputSize c)
        (b1 c) hdiv))
      (fun _ => 0) hw2 i hi]
  congr 1
  unfold cpu_mv_u8 cpu_mv_i8
  refine Finset.sum_congr rfl ?_
  intro c hc
  have hcc := Finset.mem_range.mp hc
  dsimp only
  rw [imc_layer_eq_cpu w1 hiddenSize inputSize img (fun _ => 0) hw1 c hcc,
    u8_of_i8_eq_self _ (hidden_post_bounds _ _ _ hd).1
      (hidden_post_bounds _ _ _ hd).2]
  rfl

lemma g_val_bounds (W : ℕ → ℕ → ℤ) (rows cols r_start c_start r c : ℕ)
    (hW : ∀ r c, r < rows → c < cols → i8_range (W r c)) :
    0 ≤ g_val W rows cols r_start c_start r c ∧
      g_val W rows cols r_start c_start r c ≤ 255 := by
  unfold g_val
  by_cases h : r_start + r < rows ∧ c_start + c < cols
  · rw [if_pos h]
    have hw := hW _ _ h.1 h.2
    unfold i8_range at hw
    rw [Int.emod_eq_of_lt (by omega) (by omega)]
    omega
  · rw [if_neg h]
    omega

lemma v_in_bounds (inp : ℕ → ℤ) (cols c_start c : ℕ)
    (hinp : ∀ c, c < cols → u8_range (inp c)) :
    0 ≤ v_in inp cols c_start c ∧ v_in inp cols c_start c ≤ 255 := by
  unfold v_in
  by_cases h : c_start + c < cols
  · rw [if_pos h]
    exact hinp _ h
  · rw [if_neg h]
    omega

lemma sum_v_bounds (inp : ℕ → ℤ) (cols c_start : ℕ)
    (hinp : ∀ c, c < cols → u8_range (inp c)) :
    0 ≤ sum_v inp cols c_start ∧ sum_v inp cols c_start ≤ 2040 := by
  unfold sum_v
  constructor
  · exact Finset.sum_nonneg
      (fun c _ => (v_in_bounds inp cols c_start c hinp).1)
  · calc ∑ c ∈ Finset.range 8, v_in inp cols c_start c
        ≤ ∑ _c ∈ Finset.range 8, (255 : ℤ) :=
          Finset.sum_le_sum (fun c _ => (v_in_bounds inp cols c_start c hinp).2)
      _ = 2040 := by simp

lemma imc_result_bounds (W : ℕ → ℕ → ℤ) (rows cols : ℕ) (inp : ℕ → ℤ)
    (r_start c_start r : ℕ)
    (hW : ∀ r c, r < rows → c < cols → i8_range (W r c))
    (hinp : ∀ c, c < cols → u8_range (inp c)) :
    0 ≤ imc_result W rows cols inp r_start c_start r ∧
      imc_result W rows cols inp r_start c_start r ≤ 520200 := by
  unfold imc_result
  constructor
  · refine Finset.sum_nonneg ?_
    intro c _
    exact mul_nonneg (g_val_bounds W rows cols r_start c_start r c hW).1
      (v_in_bounds inp cols c_start c hinp).1
  · calc ∑ c ∈ Finset.range 8,
          g_val W rows cols r_start c_start r c * v_in inp cols c_start c
        ≤ ∑ _c ∈ Finset.range 8, (65025 : ℤ) := by
          refine Finset.sum_le_sum ?_
          intro c _
          have hg := g_val_bounds W rows cols r_start c_start r c hW
          have hv := v_in_bounds inp cols c_start c hinp
          calc g_val W rows cols r_start c_start r c * v_in inp cols c_start c
              ≤ 255 * 255 :=
                mul_le_mul hg.2 hv.2 hv.1 (by norm_num)
            _ = 65025 := by norm_num
      _ = 520200 := by simp

lemma true_mac_bounds (W : ℕ → ℕ → ℤ) (rows cols : ℕ) (inp : ℕ → ℤ)
    (r_start c_start r : ℕ)
    (hW : ∀ r c, r < rows → c < cols → i8_range (W r c))
    (hinp : ∀ c, c < cols → u8_range (inp c)) :
    -261120 ≤ true_mac W rows cols inp r_start c_start r ∧
      true_mac W rows cols inp r_start c_start r ≤ 520200 := by
  unfold true_mac
  have h1 := imc_result_bounds W rows cols inp r_start c_start r hW hinp
  have h2 := sum_v_bounds inp cols c_start hinp
  omega

/-- C1: for every signed 8-bit weight matrix of `rows × cols` and every
unsigned 8-bit input vector, the tiled IMC layer execution produces
exactly the same output as the direct CPU dot product on every row
`r < rows` — for all matrix sizes, hence in particular for `rows`,
`cols` in `{1, 7, 8, 9, 16, 23}` (sub-tile, exact-tile, and
multi-tile-with-remainder). -/
theorem C1_imc_layer_matches_cpu (W : ℕ → ℕ → ℤ) (inp : ℕ → ℤ)
    (out : ℕ → ℤ) (rows cols : ℕ)
    (hW : ∀ r c, r < rows → c < cols → i8_range (W r c))
    (hinp : ∀ c, c < cols → u8_range (inp c)) :
    ∀ r, r < rows →
      imc_layer_execution W inp out rows cols r = cpu_mv_u8 W inp cols r :=
  fun r hr => imc_layer_eq_cpu W rows cols inp out hW r hr

theorem C1_witness :
    imc_layer_execution (fun r c => -100 + (r : ℤ) + 2 * c)
        (fun c => ((c : ℤ) * 11) % 256) (fun _ => 0) 9 23 5
      = cpu_mv_u8 (fun r c => -100 + (r : ℤ) + 2 * c)
          (fun c => ((c : ℤ) * 11) % 256) 23 5 :=
  C1_imc_layer_matches_cpu _ _ _ 9 23
    (by
      intro r c hr hc
      show -128 ≤ -100 + (r : ℤ) + 2 * c ∧ -100 + (r : ℤ) + 2 * c ≤ 127
      omega)
    (by
      intro c _
      show 0 ≤ ((c : ℤ) * 11) % 256 ∧ ((c : ℤ) * 11) % 256 ≤ 255
      omega)
    5 (by norm_num)

/-- C2: for every tile, the correction `true_MAC[r] = raw[r] - 128 * sum_v`
(with `sum_v` the sum of the 8 clamped/zero-padded unsigned input
bytes) recovers the true signed partial MAC exactly; the scalar
round-trip `(w+128)*x - 128*x = w*x` holds for every signed weight and
unsigned input; and tile-scale sums of 8 terms stay far inside the
32-bit signed range. -/
theorem C2_offset_correction (W : ℕ → ℕ → ℤ) (rows cols : ℕ)
    (inp : ℕ → ℤ) (r_start c_start : ℕ)
    (hW : ∀ r c, r < rows → c < cols → i8_range (W r c))
    (hinp : ∀ c, c < cols → u8_range (inp c)) :
    (∀ r, r_start + r < rows →
        true_mac W rows cols inp r_start c_start r
          = imc_result W rows cols inp r_start c_start r
              - 128 * sum_v inp cols c_start
        ∧ true_mac W rows cols inp r_start c_start r
          = ∑ c ∈ Finset.range 8,
              if c_start + c < cols then
                W (r_start + r) (c_start + c) * inp (c_start + c)
              else 0)
    ∧ (∀ w x : ℤ, i8_range w → u8_range x → (w + 128) * x - 128 * x = w * x)
    ∧ (∀ r : ℕ,
        -(2 ^ 31) < true_mac W rows cols inp r_start c_start r
        ∧ true_mac W rows cols inp r_start c_start r < 2 ^ 31
        ∧ 0 ≤ imc_result W rows cols inp r_start c_start r
        ∧ imc_result W rows cols inp r_start c_start r < 2 ^ 31) := by
  refine ⟨?_, ?_, ?_⟩
  · intro r hr
    exact ⟨rfl, true_mac_eq W rows cols inp hW r_start c_start r hr⟩
  · intro w x _ _
    ring
  · intro r
    have h1 := true_mac_bounds W rows cols inp r_start c_start r hW hinp
    have h2 := imc_result_bounds W rows cols inp r_start c_start r hW hinp
    refine ⟨by omega, by omega, h2.1, by omega⟩

theorem C2_witness :
    true_mac (fun r c => -100 + (r : ℤ) + 2 * c)
        9 23 (fun c => ((c : ℤ) * 11) % 256) 0 16 2
      = ∑ c ∈ Finset.range 8,
          if 16 + c < 23 then
            (fun r c => -100 + (r : ℤ) + 2 * c) (0 + 2) (16 + c)
              * (fun c => ((c : ℤ) * 11) % 256) (16 + c)
          else 0 :=
  ((C2_offset_correction _ 9 23 _ 0 16
    (by
      intro r c hr hc
      show -128 ≤ -100 + (r : ℤ) + 2 * c ∧ -100 + (r : ℤ) + 2 * c ≤ 127
      omega)
    (by
      intro c _
      show 0 ≤ ((c : ℤ) * 11) % 256 ∧ ((c : ℤ) * 11) % 256 ≤ 255
      omega)).1 2 (by norm_num)).2

/-- C4: tile cells mapping beyond the true `rows`/`cols` are programmed
to the neutral conductance 128, input positions beyond `cols` are
zero-filled, and consequently, after offset correction, the corrected
MAC of every in-range output row equals the sum of in-bounds products
only — out-of-bounds positions contribute exactly 0, for every tile
boundary alignment. -/
theorem C4_padding_contributes_zero (W : ℕ → ℕ → ℤ) (rows cols : ℕ)
    (inp : ℕ → ℤ) (r_start c_start : ℕ)
    (hW : ∀ r c, r < rows → c < cols → i8_range (W r c)) :
    (∀ r c, ¬(r_start + r < rows ∧ c_start + c < cols) →
        g_val W rows cols r_start c_start r c = 128)
    ∧ (∀ c, ¬(c_start + c < cols) → v_in inp cols c_start c = 0)
    ∧ (∀ r, r_start + r < rows →
        true_mac W rows cols inp r_start c_start r
          = ∑ c ∈ Finset.range 8,
              if c_start + c < cols then
                W (r_start + r) (c_start + c) * inp (c_start + c)
              else 0) :=
  ⟨fun _ _ h => if_neg h, fun _ h => if_neg h,
    fun r hr => true_mac_eq W rows cols inp hW r_start c_start r hr⟩

theorem C4_witness :
    g_val (fun r c => -100 + (r : ℤ) + 2 * c) 9 23 8 16 3 5 = 128 :=
  (C4_padding_contributes_zero _ 9 23 (fun c => ((c : ℤ) * 11) % 256) 8 16
    (by
      intro r c hr hc
      show -128 ≤ -100 + (r : ℤ) + 2 * c ∧ -100 + (r : ℤ) + 2 * c ≤ 127
      omega)).1 3 5 (by omega)

/-- C9: a tile operation adds its corrected result only into
accumulator rows `r_start … r_start+7` that are strictly below `rows`;
every other accumulator entry is left unchanged, and the layer
execution never writes any accumulator entry with index `≥ rows`. -/
theorem C9_no_write_beyond_rows (W : ℕ → ℕ → ℤ) (rows cols : ℕ)
    (inp : ℕ → ℤ) (out : ℕ → ℤ) (r_start c_start : ℕ) :
    (∀ i, ¬(r_start ≤ i ∧ i < r_start + 8 ∧ i < rows) →
        imc_tile_mac W rows cols inp out r_start c_start i = out i)
    ∧ (∀ i, rows ≤ i → imc_layer_execution W inp out rows cols i = out i) :=
  ⟨fun i h => imc_tile_mac_frame W rows cols inp out r_start c_start i h,
    fun i h => imc_layer_frame W inp out rows cols i h⟩

theorem C9_witness :
    imc_tile_mac (fun _ _ => (5 : ℤ)) 9 23 (fun _ => 1) (fun _ => 7) 8 0 20
      = (fun _ => (7 : ℤ)) 20 :=
  (C9_no_write_beyond_rows (fun _ _ => (5 : ℤ)) 9 23 (fun _ => 1)
    (fun _ => 7) 8 0).1 20 (by omega)

/-- C7: the shared hidden-layer post-processing adds the bias, clips
negative results to zero, performs truncating division by the divisor,
and clamps results above 127 down to exactly 127; a negative biased
accumulator is zeroed before the division, and a post-division value
above 127 (such as 130) becomes exactly 127. -/
theorem C7_hidden_post_clamp (acc b hdiv : ℤ) (hd : 0 < hdiv) :
    hidden_post acc b hdiv = min (Int.tdiv (max (acc + b) 0) hdiv) 127
    ∧ (acc + b < 0 → hidden_post acc b hdiv = 0)
    ∧ (127 < Int.tdiv (max (acc + b) 0) hdiv → hidden_post acc b hdiv = 127)
    ∧ 0 ≤ hidden_post acc b hdiv ∧ hidden_post acc b hdiv ≤ 127 := by
  refine ⟨hidden_post_eq_min acc b hdiv, ?_, ?_, hidden_post_bounds acc b hdiv hd⟩
  · intro h
    rw [hidden_post_eq_min, max_eq_right (by omega), Int.zero_tdiv]
    exact min_eq_left (by norm_num)
  · intro h
    rw [hidden_post_eq_min]
    exact min_eq_right (by omega)

theorem C7_witness :
    hidden_post 130 0 1 = 127 ∧ hidden_post (-40) 0 1 = 0 :=
  ⟨(C7_hidden_post_clamp 130 0 1 (by norm_num)).2.2.1 (by decide),
    (C7_hidden_post_clamp (-40) 0 1 (by norm_num)).2.1 (by decide)⟩

/-- C8: for every non-empty score vector, `argmax` returns an in-range
index attaining the maximum value, and every strictly earlier index
holds a strictly smaller value (the scan replaces the current best only
on strict greater-than), i.e. ties are broken towards the lowest
index. -/
theorem C8_argmax_first_max (a : ℕ → ℤ) (n : ℕ) (hn : 0 < n) :
    argmax a n < n ∧ (∀ i, i < n → a i ≤ a (argmax a n)) ∧
      (∀ j, j < argmax a n → a j < a (argmax a n)) :=
  argmax_spec a n hn

theorem C8_witness :
    argmax (fun i => ([5, 5, 3] : List ℤ).getD i 0) 3 < 3
    ∧ argmax (fun i => ([5, 5, 3] : List ℤ).getD i 0) 3 = 0
    ∧ argmax (fun i => ([1, 9, 9, 2] : List ℤ).getD i 0) 4 = 1 :=
  ⟨(C8_argmax_first_max (fun i => ([5, 5, 3] : List ℤ).getD i 0) 3
      (by norm_num)).1,
    by decide, by decide⟩

/-- C3: for every image of an (arbitrary) unsigned 8-bit test set, the
CPU strategy and the IMC strategy return the identical predicted class
index — the IMC path is a correctness-preserving execution strategy,
not an approximation.  The concrete weight tables and 10-image test set
live in `mnist_weights_int8.h`, which is not part of the repository, so
they appear here as parameters constrained exactly by their C types. -/
theorem C3_cpu_imc_agree (w1 : ℕ → ℕ → ℤ) (b1 : ℕ → ℤ)
    (w2 : ℕ → ℕ → ℤ) (b2 : ℕ → ℤ) (hdiv : ℤ)
    (inputSize hiddenSize outputSize : ℕ)
    (images : ℕ → ℕ → ℤ) (numImages : ℕ)
    (hw1 : ∀ r c, r < hiddenSize → c < inputSize → i8_range (w1 r c))
    (hw2 : ∀ r c, r < outputSize → c < hiddenSize → i8_range (w2 r c))
    (himg : ∀ d, d < numImages → ∀ c, c < inputSize → u8_range (images d c))
    (hd : 0 < hdiv) :
    ∀ d, d < numImages →
      infer_imc w1 b1 w2 b2 hdiv inputSize hiddenSize outputSize (images d)
        = infer_cpu w1 b1 w2 b2 hdiv inputSize hiddenSize outputSize
            (images d) :=
  fun d _ =>
    infer_imc_eq_infer_cpu w1 b1 w2 b2 hdiv inputSize hiddenSize outputSize
      (images d) hw1 hw2 hd

theorem C3_witness :
    infer_imc (fun r c => (r : ℤ) - 2 * c) (fun i => 10 - (i : ℤ))
        (fun r c => (r : ℤ) - c) (fun i => (i : ℤ)) 4 3 2 2
        ((fun (d c : ℕ) => (c : ℤ) * 50 + (d : ℤ)) 0)
      = infer_cpu (fun r c => (r : ℤ) - 2 * c) (fun i => 10 - (i : ℤ))
          (fun r c => (r : ℤ) - c) (fun i => (i : ℤ)) 4 3 2 2
          ((fun (d c : ℕ) => (c : ℤ) * 50 + (d : ℤ)) 0) :=
  C3_cpu_imc_agree _ _ _ _ 4 3 2 2 (fun (d c : ℕ) => (c : ℤ) * 50 + (d : ℤ)) 1
    (by
      intro r c hr hc
      show -128 ≤ (r : ℤ) - 2 * c ∧ (r : ℤ) - 2 * c ≤ 127
      omega)
    (by
      intro r c hr hc
      show -128 ≤ (r : ℤ) - c ∧ (r : ℤ) - c ≤ 127
      omega)
    (by
      intro d hd c hc
      show 0 ≤ (c : ℤ) * 50 + d ∧ (c : ℤ) * 50 + d ≤ 255
      omega)
    (by norm_num) 0 (by norm_num)

/-- C10: with a positive divisor, every post-processed hidden
activation lies in `[0, 127]`; reinterpreting such a stored signed
8-bit value as an unsigned byte (`u8_of_i8`) preserves it exactly, and
therefore the unsigned-input IMC tile path applied to the reinterpreted
hidden buffer computes the correct signed second-layer dot product. -/
theorem C10_hidden_act_u8_safe (w2 : ℕ → ℕ → ℤ) (b1 : ℕ → ℤ) (hdiv : ℤ)
    (hiddenSize outputSize : ℕ) (hidden_acc : ℕ → ℤ)
    (hw2 : ∀ r c, r < outputSize → c < hiddenSize → i8_range (w2 r c))
    (hd : 0 < hdiv) :
    (∀ i, 0 ≤ hidden_post (hidden_acc i) (b1 i) hdiv
        ∧ hidden_post (hidden_acc i) (b1 i) hdiv ≤ 127
        ∧ u8_of_i8 (hidden_post (hidden_acc i) (b1 i) hdiv)
            = hidden_post (hidden_acc i) (b1 i) hdiv)
    ∧ (∀ i, i < outputSize →
        imc_layer_execution w2
            (fun c => u8_of_i8 (hidden_post (hidden_acc c) (b1 c) hdiv))
            (fun _ => 0) outputSize hiddenSize i
          = cpu_mv_i8 w2 (fun c => hidden_post (hidden_acc c) (b1 c) hdiv)
              hiddenSize i) := by
  constructor
  · intro i
    have hb := hidden_post_bounds (hidden_acc i) (b1 i) hdiv hd
    exact ⟨hb.1, hb.2, u8_of_i8_eq_self _ hb.1 hb.2⟩
  · intro i hi
    rw [imc_layer_eq_cpu w2 outputSize hiddenSize
        (fun c => u8_of_i8 (hidden_post (hidden_acc c) (b1 c) hdiv))
        (fun _ => 0) hw2 i hi]
    unfold cpu_mv_u8 cpu_mv_i8
    refine Finset.sum_congr rfl ?_
    intro c _
    dsimp only
    rw [u8_of_i8_eq_self _ (hidden_post_bounds _ _ _ hd).1
      (hidden_post_bounds _ _ _ hd).2]

theorem C10_witness :
    u8_of_i8 (hidden_post 500 20 4) = hidden_post 500 20 4 :=
  ((C10_hidden_act_u8_safe (fun r c => (r : ℤ) - c) (fun _ => 20) 4 2 2
      (fun _ => 500)
      (by
        intro r c hr hc
        show -128 ≤ (r : ℤ) - c ∧ (r : ℤ) - c ≤ 127
        omega)
      (by norm_num)).1 0).2.2

end IMCModel

namespace Bench

/-- Byte values of a string literal: the serial channel between the
device program and the observer carries bytes, modelled by their code
points (`'@' = 64`, newline = 10). -/
def bytes (s : String) : List ℕ := s.toList.map Char.toNat

/-- Fuel-based decimal rendering helper: the ASCII digit bytes of `n`,
most significant first (fuel `n + 1` always suffices). -/
def decDigitsGo : ℕ → ℕ → List ℕ
  | 0, _ => []
  | fuel + 1, n =>
      if n < 10 then [48 + n]
      else decDigitsGo fuel (n / 10) ++ [48 + n % 10]

/-- Modelled from the spec: the `%u` rendering of printf (the printf
implementation is external runtime plumbing, declared out of scope by
the spec): the decimal digits of the unsigned value. -/
def fmt_u (n : ℕ) : List ℕ := decDigitsGo (n + 1) n

/-- Modelled from the spec: the `%d` rendering of printf: an optional
minus sign (byte 45) followed by decimal digits. -/
def fmt_d (z : ℤ) : List ℕ :=
  if z < 0 then 45 :: fmt_u z.natAbs else fmt_u z.natAbs

/-- Modelled from the spec: left-justified minimum-width printf padding
(`%-5s`, `%-12u`, …): the rendered text followed by space bytes up to
the field width. -/
def padTo (w : ℕ) (s : List ℕ) : List ℕ :=
  s ++ List.replicate (w - s.length) 32

/-- One table row printed by `main` (hello.c lines 170-172):
`printf("  %d   |   %d   | %-12u | %-12u | %s\n", d, label, cpu_cyc,
imc_cyc, (pred_cpu == pred_imc) ? "YES" : "NO")`. -/
def row_line (d : ℕ) (label : ℤ) (cpu_cyc imc_cyc : ℕ) (agree : Bool) :
    List ℕ :=
  bytes "  " ++ fmt_d (d : ℤ) ++ bytes "   |   " ++ fmt_d label
    ++ bytes "   | " ++ padTo 12 (fmt_u cpu_cyc) ++ bytes " | "
    ++ padTo 12 (fmt_u imc_cyc) ++ bytes " | "
    ++ bytes (if agree then "YES" else "NO") ++ bytes "\n"

/-- The 56-byte banner separator of hello.c (a row of `'='`, byte 61). -/
def eqRow : List ℕ := List.replicate 56 61

/-- The 56-byte table separator of hello.c (a row of `'-'`, byte 45). -/
def dashRow : List ℕ := List.replicate 56 45

/-- The complete byte stream printed by `main` (hello.c lines 138-185),
as a function of the run-time quantities (labels, per-image cycle
counts, agreement flags, tallies): the header, one row per test image,
and the aggregate results block.  `main` prints nothing else before
entering its final `while(1)` loop. -/
def main_output (numImages : ℕ) (labels : ℕ → ℤ) (cpu_cycs imc_cycs : ℕ → ℕ)
    (agrees : ℕ → Bool) (cpu_correct imc_correct : ℤ)
    (total_cpu total_imc : ℕ) : List ℕ :=
  ([10] ++ eqRow ++ [10])
    ++ bytes " CPU vs ReRAM IMC (8x8) Inference Benchmark\n"
    ++ (eqRow ++ [10, 10])
    ++ padTo 5 (bytes "Image") ++ bytes " | " ++ padTo 5 (bytes "Label")
    ++ bytes " | " ++ padTo 12 (bytes "CPU Cycles") ++ bytes " | "
    ++ padTo 12 (bytes "IMC Cycles") ++ bytes " | "
    ++ padTo 8 (bytes "Match?") ++ bytes "\n"
    ++ (dashRow ++ [10])
    ++ ((List.range numImages).map (fun d =>
          row_line d (labels d) (cpu_cycs d) (imc_cycs d) (agrees d))).flatten
    ++ (dashRow ++ [10])
    ++ bytes "\nRESULTS:\n"
    ++ bytes "  CPU Accuracy: " ++ fmt_d cpu_correct ++ bytes "/10\n"
    ++ bytes "  IMC Accuracy: " ++ fmt_d imc_correct ++ bytes "/10\n"
    ++ bytes "  Avg CPU Cycles: " ++ fmt_u (total_cpu / 10) ++ bytes "\n"
    ++ bytes "  Avg IMC Cycles: " ++ fmt_u (total_imc / 10) ++ bytes "\n"
    ++ ([10] ++ eqRow ++ [10, 10])

/-- The C++ `std::string::find` of testbench.cpp: the index of the first
occurrence of `pat` in `s`, or `none` where the C++ code receives
`npos` (and therefore does not enter the marker branch). -/
def findPat : List ℕ → List ℕ → Option ℕ
  | pat, [] => if pat = [] then some 0 else none
  | pat, b :: t =>
      if pat.isPrefixOf (b :: t) then some 0
      else (findPat pat t).map (· + 1)

/-- Marker-name extraction (testbench.cpp lines 61-62 and 67-68):
`substr(pos + len)` followed by truncation at the first newline. -/
def markerName (line : List ℕ) (pos len : ℕ) : List ℕ :=
  (line.drop (pos + len)).takeWhile (fun b => b != 10)

/-- Marker recording on a completed line (testbench.cpp lines 58-70):
a line containing `@@START_` records a `START_`-keyed cycle stamp; else
a line containing `@@END_` records an `END_`-keyed stamp.  The C++
`std::map` assignment overwrites; consing onto an association list read
through `List.lookup` (first match wins) gives exactly this
last-write-wins behaviour. -/
def recordMarkers (line : List ℕ) (cycle : ℕ)
    (m : List (List ℕ × ℕ)) : List (List ℕ × ℕ) :=
  match findPat (bytes "@@START_") line with
  | some pos => (bytes "START_" ++ markerName line pos 8, cycle) :: m
  | none =>
      match findPat (bytes "@@END_") line with
      | some pos => (bytes "END_" ++ markerName line pos 6, cycle) :: m
      | none => m

/-- One observed UART byte edge in the observer loop (testbench.cpp
lines 43-76): the byte is appended to `current_line`; on a newline the
completed line is scanned for markers (stamped with the current cycle)
and the line is reset.  An event is a `(cycle, byte)` pair; state is
`(current_line, markers)`. -/
def obsStep (st : List ℕ × List (List ℕ × ℕ)) (ev : ℕ × ℕ) :
    List ℕ × List (List ℕ × ℕ) :=
  let line := st.1 ++ [ev.2]
  if ev.2 = 10 then ([], recordMarkers line ev.1 st.2) else (line, st.2)

/-- The observer state after scanning an entire event stream, starting
from an empty line and no markers. -/
def obsRun (events : List (ℕ × ℕ)) : List ℕ × List (List ℕ × ℕ) :=
  events.foldl obsStep ([], [])

/-- Function `calc_diff` (testbench.cpp lines 86-93): when both keys are present
the `uint64_t` difference `END - START` (wrap-around modulo `2 ^ 64`),
otherwise 0 (the phase is reported unmeasured, not an error). -/
def calc_diff (m : List (List ℕ × ℕ)) (start_key end_key : List ℕ) : ℕ :=
  match List.lookup start_key m, List.lookup end_key m with
  | some s, some e => (2 ^ 64 + e - s) % 2 ^ 64
  | _, _ => 0

/-- The six phase names probed by testbench.cpp lines 95-103. -/
def phaseNames : List (List ℕ) :=
  [bytes "PREPARE", bytes "LAYER1", bytes "RELU", bytes "LAYER2",
    bytes "ARGMAX", bytes "TOTAL"]

/-- A byte list that never contains `'@'` (byte 64) — no line built
from it can ever carry a `@@START_`/`@@END_` marker. -/
def noAt (l : List ℕ) : Prop := ∀ b ∈ l, b ≠ 64

lemma noAt_append {a b : List ℕ} (ha : noAt a) (hb : noAt b) :
    noAt (a ++ b) := by
  intro x hx
  rcases List.mem_append.mp hx with h | h
  · exact ha x h
  · exact hb x h

lemma noAt_of_all {l : List ℕ} (h : l.all (fun b => b != 64) = true) :
    noAt l := by
  intro x hx
  simpa using List.all_eq_true.mp h x hx

lemma decDigitsGo_digits :
    ∀ fuel n b, b ∈ decDigitsGo fuel n → 48 ≤ b ∧ b ≤ 57 := by
  intro fuel
  induction fuel with
  | zero =>
      intro n b hb
      simp [decDigitsGo] at hb
  | succ fuel ih =>
      intro n b hb
      unfold decDigitsGo at hb
      by_cases h : n < 10
      · rw [if_pos h] at hb
        simp only [List.mem_singleton] at hb
        omega
      · rw [if_neg h] at hb
        rcases List.mem_append.mp hb with h1 | h1
        · exact ih _ _ h1
        · simp only [List.mem_singleton] at h1
          have hm : n % 10 < 10 := Nat.mod_lt _ (by norm_num)
          omega

lemma noAt_fmt_u (n : ℕ) : noAt (fmt_u n) := by
  intro b hb
  have := decDigitsGo_digits (n + 1) n b hb
  omega

lemma noAt_fmt_d (z : ℤ) : noAt (fmt_d z) := by
  unfold fmt_d
  by_cases h : z < 0
  · rw [if_pos h]
    intro b hb
    rcases List.mem_cons.mp hb with h1 | h1
    · omega
    · exact noAt_fmt_u _ b h1
  · rw [if_neg h]
    exact noAt_fmt_u _

lemma noAt_padTo (w : ℕ) (s : List ℕ) (h : noAt s) : noAt (padTo w s) := by
  refine noAt_append h ?_
  intro b hb
  have := List.eq_of_mem_replicate hb
  omega

lemma noAt_eqRow : noAt eqRow := by
  intro b hb
  have := List.eq_of_mem_replicate hb
  omega

lemma noAt_dashRow : noAt dashRow := by
  intro b hb
  have := List.eq_of_mem_replicate hb
  omega

lemma noAt_flatten {L : List (List ℕ)} (h : ∀ l ∈ L, noAt l) :
    noAt L.flatten := by
  intro b hb
  rcases List.mem_flatten.mp hb with ⟨l, hl, hbl⟩
  exact h l hl b hbl

lemma noAt_row_line (d : ℕ) (label : ℤ) (cpu_cyc imc_cyc : ℕ)
    (agree : Bool) : noAt (row_line d label cpu_cyc imc_cyc agree) := by
  unfold row_line
  refine noAt_append ?_ (noAt_of_all (by decide))
  refine noAt_append ?_ ?_
  · refine noAt_append ?_ (noAt_of_all (by decide))
    refine noAt_append ?_ (noAt_padTo _ _ (noAt_fmt_u _))
    refine noAt_append ?_ (noAt_of_all (by decide))
    refine noAt_append ?_ (noAt_padTo _ _ (noAt_fmt_u _))
    refine noAt_append ?_ (noAt_of_all (by decide))
    refine noAt_append ?_ (noAt_fmt_d _)
    refine noAt_append ?_ (noAt_of_all (by decide))
    exact noAt_append (noAt_of_all (by decide)) (noAt_fmt_d _)
  · cases agree
    · exact noAt_of_all (by decide)
    · exact noAt_of_all (by decide)

lemma noAt_main_output (numImages : ℕ) (labels : ℕ → ℤ)
    (cpu_cycs imc_cycs : ℕ → ℕ) (agrees : ℕ → Bool)
    (cpu_correct imc_correct : ℤ) (total_cpu total_imc : ℕ) :
    noAt (main_output numImages labels cpu_cycs imc_cycs agrees
      cpu_correct imc_correct total_cpu total_imc) := by
  unfold main_output
  refine noAt_append ?_ (noAt_append (noAt_append (noAt_of_all (by decide))
    noAt_eqRow) (noAt_of_all (by decide)))
  refine noAt_append ?_ (noAt_of_all (by decide))
  refine noAt_append ?_ (noAt_fmt_u _)
  refine noAt_append ?_ (noAt_of_all (by decide))
  refine noAt_append ?_ (noAt_of_all (by decide))
  refine noAt_append ?_ (noAt_fmt_u _)
  refine noAt_append ?_ (noAt_of_all (by decide))
  refine noAt_append ?_ (noAt_of_all (by decide))
  refine noAt_append ?_ (noAt_fmt_d _)
  refine noAt_append ?_ (noAt_of_all (by decide))
  refine noAt_append ?_ (noAt_of_all (by decide))
  refine noAt_append ?_ (noAt_fmt_d _)
  refine noAt_append ?_ (noAt_of_all (by decide))
  refine noAt_append ?_ (noAt_of_all (by decide))
  refine noAt_append ?_ (noAt_append noAt_dashRow (noAt_of_all (by decide)))
  refine noAt_append ?_ ?_
  · refine noAt_append ?_ (noAt_append noAt_dashRow (noAt_of_all (by decide)))
    refine noAt_append ?_ (noAt_of_all (by decide))
    refine noAt_append ?_ (noAt_padTo _ _ (noAt_of_all (by decide)))
    refine noAt_append ?_ (noAt_of_all (by decide))
    refine noAt_append ?_ (noAt_padTo _ _ (noAt_of_all (by decide)))
    refine noAt_append ?_ (noAt_of_all (by decide))
    refine noAt_append ?_ (noAt_padTo _ _ (noAt_of_all (by decide)))
    refine noAt_append ?_ (noAt_of_all (by decide))
    refine noAt_append ?_ (noAt_padTo _ _ (noAt_of_all (by decide)))
    refine noAt_append ?_ (noAt_of_all (by decide))
    refine noAt_append ?_ (noAt_padTo _ _ (noAt_of_all (by decide)))
    refine noAt_append ?_ (noAt_append noAt_eqRow (noAt_of_all (by decide)))
    exact noAt_append (noAt_append (noAt_append (noAt_of_all (by decide))
      noAt_eqRow) (noAt_of_all (by decide))) (noAt_of_all (by decide))
  · refine noAt_flatten ?_
    intro l hl
    rcases List.mem_map.mp hl with ⟨d, _, hd⟩
    rw [← hd]
    exact noAt_row_line _ _ _ _ _

lemma isPrefixOf_mem : ∀ (p l : List ℕ), p.isPrefixOf l = true →
    ∀ b ∈ p, b ∈ l := by
  intro p
  induction p with
  | nil =>
      intro l _ b hb
      exact absurd hb (List.not_mem_nil b)
  | cons x p ih =>
      intro l h b hb
      cases l with
      | nil => simp [List.isPrefixOf] at h
      | cons y t =>
          simp only [List.isPrefixOf, Bool.and_eq_true, beq_iff_eq] at h
          rcases List.mem_cons.mp hb with rfl | h1
          · rw [h.1]
            exact List.mem_cons_self y t
          · exact List.mem_cons_of_mem y (ih t h.2 b h1)

lemma findPat_none_of_not_mem (pat s : List ℕ) (b : ℕ) (hb : b ∈ pat)
    (hs : b ∉ s) : findPat pat s = none := by
  induction s with
  | nil =>
      have hpat : ¬pat = [] := by
        intro h
        rw [h] at hb
        exact absurd hb (List.not_mem_nil b)
      simp [findPat, hpat]
  | cons x t ih =>
      unfold findPat
      have hpre : ¬pat.isPrefixOf (x :: t) = true := by
        intro h
        exact hs (isPrefixOf_mem pat (x :: t) h b hb)
      rw [if_neg hpre, ih (fun hm => hs (List.mem_cons_of_mem x hm))]
      rfl

lemma recordMarkers_of_noAt (line : List ℕ) (cycle : ℕ)
    (m : List (List ℕ × ℕ)) (h : noAt line) :
    recordMarkers line cycle m = m := by
  unfold recordMarkers
  rw [findPat_none_of_not_mem (bytes "@@START_") line 64 (by decide)
      (fun hm => h 64 hm rfl),
    findPat_none_of_not_mem (bytes "@@END_") line 64 (by decide)
      (fun hm => h 64 hm rfl)]

lemma obsRun_of_noAt :
    ∀ (events : List (ℕ × ℕ)), (∀ ev ∈ events, ev.2 ≠ 64) →
      ∀ st : List ℕ × List (List ℕ × ℕ), noAt st.1 →
        (events.foldl obsStep st).2 = st.2
          ∧ noAt (events.foldl obsStep st).1 := by
  intro events
  induction events with
  | nil => exact fun _ st h => ⟨rfl, h⟩
  | cons ev evs ih =>
      intro hev st hst
      have hev0 : ev.2 ≠ 64 := hev ev (List.mem_cons_self ev evs)
      have hline : noAt (st.1 ++ [ev.2]) := by
        refine noAt_append hst ?_
        intro b hb
        rw [List.mem_singleton.mp hb]
        exact hev0
      have hstep : (obsStep st ev).2 = st.2 ∧ noAt (obsStep st ev).1 := by
        unfold obsStep
        by_cases h10 : ev.2 = 10
        · rw [if_pos h10]
          exact ⟨recordMarkers_of_noAt _ _ _ hline,
            fun b hb => absurd hb (List.not_mem_nil b)⟩
        · rw [if_neg h10]
          exact ⟨rfl, hline⟩
      rw [List.foldl_cons]
      have := ih (fun e he => hev e (List.mem_cons_of_mem ev he))
        (obsStep st ev) hstep.2
      exact ⟨this.1.trans hstep.1, this.2⟩

lemma obsRun_markers_of_stream (events : List (ℕ × ℕ))
    (hev : ∀ ev ∈ events, ev.2 ≠ 64) : (obsRun events).2 = [] :=
  (obsRun_of_noAt events hev ([], [])
    (fun b hb => absurd hb (List.not_mem_nil b))).1

/-- C6: for each of the six named phases, the observer computes its
duration as exactly `END - START` when both markers were recorded on
the stream, and reports 0 (unmeasured) rather than failing when either
marker is absent. -/
theorem C6_phase_duration (events : List (ℕ × ℕ)) (name : List ℕ)
    (hname : name ∈ phaseNames) :
    (∀ s e,
        List.lookup (bytes "START_" ++ name) (obsRun events).2 = some s →
        List.lookup (bytes "END_" ++ name) (obsRun events).2 = some e →
        s ≤ e → e < 2 ^ 64 →
        calc_diff (obsRun events).2 (bytes "START_" ++ name)
          (bytes "END_" ++ name) = e - s)
    ∧ ((List.lookup (bytes "START_" ++ name) (obsRun events).2 = none ∨
        List.lookup (bytes "END_" ++ name) (obsRun events).2 = none) →
        calc_diff (obsRun events).2 (bytes "START_" ++ name)
          (bytes "END_" ++ name) = 0) := by
  constructor
  · intro s e hs he hle hlt
    unfold calc_diff
    rw [hs, he]
    have h64 : (2 : ℕ) ^ 64 = 18446744073709551616 := by norm_num
    simp only [h64]
    omega
  · intro h
    unfold calc_diff
    rcases h with h | h
    · rw [h]
    · rw [h]
      cases List.lookup (bytes "START_" ++ name) (obsRun events).2 <;> rfl

/-- The synthetic marker stream of the spec's example: a line
`@@START_LAYER1` whose newline arrives at cycle 100, then a line
`@@END_LAYER1` whose newline arrives at cycle 340. -/
def exStream : List (ℕ × ℕ) :=
  (List.range' 86 15).zip (bytes "@@START_LAYER1\n")
    ++ (List.range' 328 13).zip (bytes "@@END_LAYER1\n")

theorem C6_witness :
    calc_diff (obsRun exStream).2 (bytes "START_" ++ bytes "LAYER1")
        (bytes "END_" ++ bytes "LAYER1") = 240
    ∧ calc_diff (obsRun exStream).2 (bytes "START_" ++ bytes "PREPARE")
        (bytes "END_" ++ bytes "PREPARE") = 0 :=
  ⟨(C6_phase_duration exStream (bytes "LAYER1") (by decide)).1 100 340
      (by decide) (by decide) (by decide) (by decide),
    (C6_phase_duration exStream (bytes "PREPARE") (by decide)).2
      (Or.inl (by decide))⟩

theorem C5_counterexample :
    findPat (bytes "@@START_")
        (main_output 10 (fun _ => 0) (fun _ => 0) (fun _ => 0)
          (fun _ => false) 0 0 0 0) = none
    ∧ findPat (bytes "@@END_")
        (main_output 10 (fun _ => 0) (fun _ => 0) (fun _ => 0)
          (fun _ => false) 0 0 0 0) = none :=
  ⟨findPat_none_of_not_mem _ _ 64 (by decide)
      (fun hm => noAt_main_output 10 (fun _ => 0) (fun _ => 0) (fun _ => 0)
        (fun _ => false) 0 0 0 0 64 hm rfl),
    findPat_none_of_not_mem _ _ 64 (by decide)
      (fun hm => noAt_main_output 10 (fun _ => 0) (fun _ => 0) (fun _ => 0)
        (fun _ => false) 0 0 0 0 64 hm rfl)⟩

/-- C5 (amended): the device-side program emits no `@@START_`/`@@END_`
markers at all — its output byte stream never contains the `'@'` byte,
so the observer records no markers from it and reports every phase of
the fixed set as unmeasured (zero). -/
theorem C5_no_markers_emitted (numImages : ℕ) (labels : ℕ → ℤ)
    (cpu_cycs imc_cycs : ℕ → ℕ) (agrees : ℕ → Bool)
    (cpu_correct imc_correct : ℤ) (total_cpu total_imc : ℕ)
    (events : List (ℕ × ℕ))
    (hev : events.map Prod.snd
      = main_output numImages labels cpu_cycs imc_cycs agrees
          cpu_correct imc_correct total_cpu total_imc) :
    (64 : ℕ) ∉ main_output numImages labels cpu_cycs imc_cycs agrees
        cpu_correct imc_correct total_cpu total_imc
    ∧ (obsRun events).2 = []
    ∧ ∀ name ∈ phaseNames,
        calc_diff (obsRun events).2 (bytes "START_" ++ name)
          (bytes "END_" ++ name) = 0 := by
  have hno := noAt_main_output numImages labels cpu_cycs imc_cycs agrees
    cpu_correct imc_correct total_cpu total_imc
  have hev' : ∀ ev ∈ events, ev.2 ≠ 64 := by
    intro ev hmem
    have hm : ev.2 ∈ main_output numImages labels cpu_cycs imc_cycs agrees
        cpu_correct imc_correct total_cpu total_imc := by
      rw [← hev]
      exact List.mem_map_of_mem Prod.snd hmem
    exact hno _ hm
  have hmk := obsRun_markers_of_stream events hev'
  refine ⟨fun hm => hno 64 hm rfl, hmk, ?_⟩
  intro name _
  rw [hmk]
  rfl

theorem C5_witness :
    calc_diff
        (obsRun ((main_output 10 (fun _ => 0) (fun _ => 0) (fun _ => 0)
          (fun _ => false) 0 0 0 0).map (fun b => (0, b)))).2
        (bytes "START_" ++ bytes "TOTAL") (bytes "END_" ++ bytes "TOTAL")
      = 0 :=
  (C5_no_markers_emitted 10 (fun _ => 0) (fun _ => 0) (fun _ => 0)
    (fun _ => false) 0 0 0 0
    ((main_output 10 (fun _ => 0) (fun _ => 0) (fun _ => 0)
      (fun _ => false) 0 0 0 0).map (fun b => (0, b)))
    (by rw [List.map_map]; exact List.map_id _)).2.2
    (bytes "TOTAL") (by decide)

end Bench
